import Mathlib

/-!
Shallow embedding of the `cyril-core` mediation layer (hook engine, path
translation, terminal manager, capability client) with proofs about its
documented behaviour.

Conventions of the embedding:
* Rust `String`/`PathBuf` values are modelled as Lean `String` (or `List Char`
  where byte-level reasoning about UTF-8 is required; a `List Char` is a valid
  Unicode string by construction, mirroring Rust's guarantee).
* Async functions are pure: external effects (shell execution, the filesystem,
  process spawning) are passed in as explicit oracle arguments and recorded in
  the result, so that "the effect was performed" is an inspectable fact.
* Fallible Rust functions returning `Result` become `Except String`.
-/

namespace Cyril

/-! ## Hook engine: `src/crates/cyril-core/src/hooks/types.rs` -/

/-- When the hook runs relative to the operation (`HookTiming`). -/
inductive HookTiming where
  | Before
  | After
deriving DecidableEq, Repr

/-- What kind of operation the hook targets (`HookTarget`). -/
inductive HookTarget where
  | FsRead
  | FsWrite
  | Terminal
  | TurnEnd
deriving DecidableEq, Repr

/-- Result of running a hook (`HookResult`). -/
inductive HookResult where
  | Continue
  | ModifiedArgs (content : Option String)
  | Blocked (reason : String)
  | FeedbackPrompt (text : String)
deriving DecidableEq, Repr

/-- Context passed to hooks (`HookContext`); `PathBuf` is modelled as `String`. -/
structure HookContext where
  target : HookTarget
  timing : HookTiming
  path : Option String
  content : Option String
  command : Option String
deriving DecidableEq, Repr

/-- A hook (the `Hook` trait object): its metadata plus its `run` behaviour,
modelled as a pure function from the context to the result. -/
structure Hook where
  name : String
  timing : HookTiming
  target : HookTarget
  run : HookContext → HookResult

/-- `HookRegistry::run_before`: iterate hooks in registration order; for each
hook whose `(timing, target)` is `(Before, ctx.target)` run it; `Continue`
advances the loop, any other result is returned immediately. -/
def run_before (hooks : List Hook) (ctx : HookContext) : HookResult :=
  match hooks with
  | [] => .Continue
  | h :: rest =>
    if h.timing = .Before ∧ h.target = ctx.target then
      match h.run ctx with
      | .Continue => run_before rest ctx
      | r => r
    else
      run_before rest ctx

/-- `HookRegistry::run_after`: run every hook whose `(timing, target)` is
`(After, ctx.target)` and collect the non-`Continue` results in order. -/
def run_after (hooks : List Hook) (ctx : HookContext) : List HookResult :=
  match hooks with
  | [] => []
  | h :: rest =>
    if h.timing = .After ∧ h.target = ctx.target then
      match h.run ctx with
      | .Continue => run_after rest ctx
      | r => r :: run_after rest ctx
    else
      run_after rest ctx

/-- Whether a hook result is `Continue`. -/
def HookResult.isCont : HookResult → Bool
  | .Continue => true
  | _ => false

/-- The hooks of a registry matching a given timing and the context's target,
in registration order (the specification's dispatch key). -/
def matchingHooks (t : HookTiming) (hooks : List Hook) (ctx : HookContext) : List Hook :=
  hooks.filter fun h => decide (h.timing = t ∧ h.target = ctx.target)

/-- Specification-side restatement of Before-dispatch: the first non-`Continue`
result of the matching hooks, in registration order, defaulting to `Continue`. -/
def run_before_spec (hooks : List Hook) (ctx : HookContext) : HookResult :=
  ((((matchingHooks .Before hooks ctx).map fun h => h.run ctx).find?
      fun r => !r.isCont)).getD .Continue

/-- Specification-side restatement of After-dispatch: all non-`Continue`
results of the matching hooks, in registration order. -/
def run_after_spec (hooks : List Hook) (ctx : HookContext) : List HookResult :=
  ((matchingHooks .After hooks ctx).map fun h => h.run ctx).filter fun r => !r.isCont

/-! ## Shell hooks: `src/crates/cyril-core/src/hooks/config.rs` -/

/-- `GlobFilter`: whether a hook has a glob filter and whether it compiled.
A successfully compiled `glob::Pattern` is modelled by its matching behaviour,
a predicate on strings. -/
inductive GlobFilter where
  | MatchAll
  | Pattern (pmatch : String → Bool)
  | Invalid

/-- Split a character list at every character satisfying `p` (the separators
are dropped; empty groups are kept). -/
def splitChars (p : Char → Bool) : List Char → List (List Char)
  | [] => [[]]
  | c :: rest =>
    match splitChars p rest with
    | [] => [[]]
    | g :: gs => if p c then [] :: g :: gs else (c :: g) :: gs

/-- Model of `str::trim`: drop leading and trailing whitespace characters. -/
def strTrim (s : String) : String :=
  ⟨(((s.data.dropWhile Char.isWhitespace).reverse.dropWhile Char.isWhitespace).reverse)⟩

/-- Model of `std::path::Path::file_name` for the path strings used here:
the final non-empty, non-`.` component (splitting on both separators), or
`none` when there is no such component or it is `..`. -/
def fileName (s : String) : Option String :=
  let comps := (splitChars (fun c => c = '/' || c = '\\') s.data).filter
    fun t => ¬t.isEmpty && t ≠ ['.']
  match comps.getLast? with
  | none => none
  | some last => if last = ['.', '.'] then none else some ⟨last⟩

/-- A configured shell hook (`ShellHook` together with the fields of its
`ShellHookDef` that its `run` method reads). -/
structure ShellHook where
  name : String
  command : String
  feedback : Bool
  timing : HookTiming
  target : HookTarget
  glob : GlobFilter

/-- `ShellHook::matches_path`: try the compiled pattern against the full path
string and against the filename alone; a hook with no pattern matches every
path, a hook whose pattern failed to compile matches none. -/
def ShellHook.matches_path (h : ShellHook) (path : String) : Bool :=
  match h.glob with
  | .MatchAll => true
  | .Invalid => false
  | .Pattern m =>
    m path ||
      match fileName path with
      | some f => m f
      | none => false

/-- `ShellHook::expand_command`: substitute the placeholder token with
`ctx.path` when present, leave the template verbatim otherwise. -/
def ShellHook.expand_command (h : ShellHook) (ctx : HookContext) : String :=
  match ctx.path with
  | some p => h.command.replace "$\x7bfile\x7d" p
  | none => h.command

/-- Outcome of executing the expanded command through the platform shell:
either a captured `Output` (success flag, exit code, stdout, stderr, lossily
decoded) or a spawn error. -/
inductive ExecOutcome where
  | ok (success : Bool) (code : Option Int) (stdout stderr : String)
  | spawnErr (msg : String)
deriving DecidableEq, Repr

/-- The message built for a non-zero exit. -/
def failMsg (h : ShellHook) (code : Option Int) (stdout stderr : String) : String :=
  "Hook '" ++ h.name ++ "' failed (exit " ++ toString (code.getD (-1)) ++ "):\n"
    ++ stdout ++ stderr

/-- The message built for a zero exit with feedback enabled and non-blank output. -/
def feedbackMsg (h : ShellHook) (stdout stderr : String) : String :=
  "Hook '" ++ h.name ++ "' output:\n" ++ stdout ++ stderr

/-- The message built when the command could not be spawned at all. -/
def spawnFailMsg (h : ShellHook) (e : String) : String :=
  "Hook '" ++ h.name ++ "' failed to execute: " ++ e

/-- The interpretation step of `ShellHook::run` (everything after the glob
filter): map the execution outcome to a `HookResult` according to exit status,
the feedback flag, and the hook's timing. -/
def interpretExec (h : ShellHook) (out : ExecOutcome) : HookResult :=
  match out with
  | .ok success code stdout stderr =>
    if !success then
      let combined := failMsg h code stdout stderr
      if h.feedback then .FeedbackPrompt combined
      else if h.timing = .Before then .Blocked combined
      else .Continue
    else if h.feedback ∧ ¬strTrim (stdout ++ stderr) = "" then
      .FeedbackPrompt (feedbackMsg h stdout stderr)
    else .Continue
  | .spawnErr e =>
    if h.timing = .Before then .Blocked (spawnFailMsg h e)
    else .Continue

/-- `ShellHook::run`: skip (return `Continue`) when the context carries a path
the glob filter rejects; otherwise execute the command and interpret its
outcome. The execution itself is the oracle argument `out`. -/
def ShellHook.run (h : ShellHook) (ctx : HookContext) (out : ExecOutcome) : HookResult :=
  match ctx.path with
  | some p => if !h.matches_path p then .Continue else interpretExec h out
  | none => interpretExec h out

/-! ## Path translation: `src/crates/cyril-core/src/platform/path.rs`

Paths are modelled as `List Char`. The Rust code tests bytes (`as_bytes()[1]
== b':'` etc.); because a multi-byte UTF-8 character never has an ASCII byte
in any position, those byte tests are equivalent to the character-level tests
below, guarded by the first character being single-byte (`c.toNat < 128`)
where the distinction matters. -/

/-- Replace backslashes by forward slashes (the `replace('\\', "/")` calls). -/
def sepToSlash (c : Char) : Char := if c = '\\' then '/' else c

/-- Replace forward slashes by backslashes (the `replace('/', "\\")` call). -/
def slashToSep (c : Char) : Char := if c = '/' then '\\' else c

/-- Strip the extended-length path marker that `canonicalize()` produces on
Windows, if present (`strip_prefix` falling back to the original). -/
def stripExtPfx : List Char → List Char
  | '\\' :: '\\' :: '?' :: '\\' :: rest => rest
  | s => s

/-- `win_to_wsl`: strip the extended-length marker; a drive-letter path
(second byte `b':'`) becomes `/mnt/<drive-lowercased>/<rest>` with separators
normalised and leading separators of the remainder trimmed; anything else is
returned with backslashes replaced by forward slashes. -/
def win_to_wsl (s : List Char) : List Char :=
  let s2 := stripExtPfx s
  match s2 with
  | c0 :: ':' :: rest =>
    if c0.toNat < 128 then
      let r := (rest.map sepToSlash).dropWhile fun c => c = '/'
      if r.isEmpty then '/' :: 'm' :: 'n' :: 't' :: '/' :: [c0.toLower]
      else '/' :: 'm' :: 'n' :: 't' :: '/' :: c0.toLower :: '/' :: r
    else s2.map sepToSlash
  | _ => s2.map sepToSlash

/-- `wsl_to_win`: a path of the form `/mnt/<letter>` optionally followed by
`/<rest>` becomes `<LETTER>:\<rest-with-backslashes>`; anything else is
returned unchanged. (The Rust code slices the string at byte offset 1 after
the mount marker; for a multi-byte first character that slice would panic, a
case no caller reaches, modelled here as pass-through.) -/
def wsl_to_win (s : List Char) : List Char :=
  match s with
  | '/' :: 'm' :: 'n' :: 't' :: '/' :: d :: after =>
    if d.toNat < 128 then
      match after with
      | [] => [d.toUpper, ':', '\\']
      | '/' :: suffix =>
        if suffix.isEmpty then [d.toUpper, ':', '\\']
        else d.toUpper :: ':' :: '\\' :: suffix.map slashToSep
      | _ => s
    else s
  | _ => s

/-- `looks_like_windows_path`: after stripping the extended-length marker, an
ASCII-alphabetic first byte, then `b':'`, then a separator byte. -/
def looks_like_windows_path (s : List Char) : Bool :=
  match stripExtPfx s with
  | c0 :: ':' :: c2 :: _ => c0.isAlpha && (c2 = '\\' || c2 = '/')
  | _ => false

/-- `looks_like_wsl_mount_path`: the `/mnt/` marker followed by at least one
byte, whose first byte is ASCII-alphabetic. -/
def looks_like_wsl_mount_path (s : List Char) : Bool :=
  match s with
  | '/' :: 'm' :: 'n' :: 't' :: '/' :: d :: _ => d.isAlpha
  | _ => false

/-- Direction of path translation (`Direction`). -/
inductive Direction where
  | WinToWsl
  | WslToWin
deriving DecidableEq, Repr

/-- A JSON value (`serde_json::Value`). -/
inductive Json where
  | str (s : String)
  | num (n : Int)
  | bool (b : Bool)
  | null
  | arr (items : List Json)
  | obj (entries : List (String × Json))

/-- The string-leaf rewrite of `translate_paths_in_json`: a leaf is rewritten
only when the relevant detector accepts it. -/
def translateStr (s : String) (d : Direction) : String :=
  match d with
  | .WinToWsl => if looks_like_windows_path s.data then ⟨win_to_wsl s.data⟩ else s
  | .WslToWin => if looks_like_wsl_mount_path s.data then ⟨wsl_to_win s.data⟩ else s

mutual

/-- `translate_paths_in_json`: rewrite exactly the string leaves accepted by
the direction's detector; container structure and all other leaves are kept. -/
def translate_paths_in_json : Json → Direction → Json
  | .str s, d => .str (translateStr s d)
  | .arr items, d => .arr (translateJsonList items d)
  | .obj entries, d => .obj (translateJsonEntries entries d)
  | v, _ => v

/-- Elementwise translation of a JSON array's items. -/
def translateJsonList : List Json → Direction → List Json
  | [], _ => []
  | v :: rest, d => translate_paths_in_json v d :: translateJsonList rest d

/-- Valuewise translation of a JSON object's entries (keys untouched). -/
def translateJsonEntries : List (String × Json) → Direction → List (String × Json)
  | [], _ => []
  | (k, v) :: rest, d => (k, translate_paths_in_json v d) :: translateJsonEntries rest d

end

/-- Normalise either separator to a backslash. -/
def normSep (c : Char) : Char := if c = '/' || c = '\\' then '\\' else c

/-- The canonical form of a drive-rooted host path, following the claim's
words: drive letter uppercased, backslash separators (the extended-length
marker having been stripped, which is reflected by taking the drive letter
and remainder of the already-stripped path). -/
def canonicalHost (d : Char) (rest : List Char) : List Char :=
  d.toUpper :: ':' :: '\\' :: rest.map normSep

/-- Whether a path remainder does not begin with a separator character. -/
def headNotSep : List Char → Bool
  | [] => true
  | c :: _ => c ≠ '/' && c ≠ '\\'

/-! ## Terminal manager: `src/crates/cyril-core/src/capabilities/terminal.rs`

Buffers are `String`s whose byte length is the sum of the UTF-8 sizes of
their characters, as in Rust; byte-index arithmetic is carried out over the
character list with `Char.utf8Size`. -/

/-- UTF-8 byte length of a character list (`str::len`). -/
def utf8Len : List Char → Nat
  | [] => 0
  | c :: cs => c.utf8Size + utf8Len cs

/-- The fixed truncation marker (`PREFIX` in `cap_output`). -/
def truncMarker : List Char :=
  ['[', 'o', 'u', 't', 'p', 'u', 't', ' ', 't', 'r', 'u', 'n', 'c', 'a', 't', 'e', 'd', ']', '\n']

/-- `str::ceil_char_boundary` expressed as a character count: the number of
leading characters whose total byte size is the smallest character boundary
at or after byte offset `start`. -/
def ceilChars : List Char → Nat → Nat
  | _, 0 => 0
  | [], _ + 1 => 0
  | c :: cs, s + 1 => 1 + ceilChars cs (s + 1 - c.utf8Size)

/-- Maximum accumulated output buffer size, 1 MiB (`MAX_ACCUMULATED_OUTPUT`). -/
def MAX_ACCUMULATED_OUTPUT : Nat := 1024 * 1024

/-- `cap_output`: when the buffer exceeds `maxLen` bytes, keep the most recent
bytes up to `maxLen` minus the marker length, with the cut advanced to the
next character boundary, and prepend the truncation marker; otherwise return
the buffer unchanged. -/
def capOutput (buf : List Char) (maxLen : Nat) : List Char :=
  if utf8Len buf ≤ maxLen then buf
  else
    let maxTail := maxLen - utf8Len truncMarker
    let start := utf8Len buf - maxTail
    truncMarker ++ buf.drop (ceilChars buf start)

/-- `cap_output` on `String` buffers. -/
def cap_output (buf : String) (maxLen : Nat) : String :=
  ⟨capOutput buf.data maxLen⟩

/-- Little-endian decimal digits, with explicit fuel (the first argument) so
that the recursion is structural; `n` digits always fit in fuel `n`. -/
def decRevAux : Nat → Nat → List Char
  | 0, _ => []
  | _ + 1, 0 => []
  | fuel + 1, n + 1 => Nat.digitChar ((n + 1) % 10) :: decRevAux fuel ((n + 1) / 10)

/-- Little-endian decimal digits of a positive number. -/
def decRev (n : Nat) : List Char := decRevAux n n

/-- Decimal representation of a natural number (model of Rust's `u64`
`Display`, used by `format!` for terminal ids). -/
def natDec (n : Nat) : List Char :=
  if n = 0 then ['0'] else (decRev n).reverse

/-- `TerminalId::new`: the string `term-<n>`. -/
def mkTermId (n : Nat) : String :=
  ⟨'t' :: 'e' :: 'r' :: 'm' :: '-' :: natDec n⟩

/-- Value of a little-endian digit list (used to invert `decRev`). -/
def valRev : List Char → Nat
  | [] => 0
  | c :: cs => (c.toNat - 48) + 10 * valRev cs

/-- Per-terminal bookkeeping (`TerminalProcess`): the queued chunks not yet
drained from the reader channel (in arrival order) and the accumulated output
buffer. The child process handle is modelled by the oracles of the operations
that interact with it. -/
structure TerminalProcess where
  queued : List String
  accumulated_output : String
deriving DecidableEq, Repr

/-- Manager state (`TerminalManager`): the id-to-process map (the `HashMap`
modelled as an association list, most recent insertion first) and the next
sequential id. -/
structure TerminalManager where
  terminals : List (String × TerminalProcess)
  next_id : Nat
deriving DecidableEq, Repr

/-- Lookup in the id map. -/
def tmLookup : List (String × TerminalProcess) → String → Option TerminalProcess
  | [], _ => none
  | (k, t) :: rest, id => if k = id then some t else tmLookup rest id

/-- Removal from the id map (`HashMap::remove`). -/
def tmErase (id : String) (l : List (String × TerminalProcess)) :
    List (String × TerminalProcess) :=
  l.filter fun kv => kv.1 ≠ id

/-- Insertion/overwrite in the id map (`HashMap::insert`). -/
def tmInsert (id : String) (t : TerminalProcess) (l : List (String × TerminalProcess)) :
    List (String × TerminalProcess) :=
  (id, t) :: tmErase id l

/-- `TerminalManager::new`: empty map, counter at zero (shell detection has no
observable effect on the bookkeeping modelled here). -/
def TerminalManager.new : TerminalManager := ⟨[], 0⟩

/-- `TerminalManager::create_terminal`: allocate `term-<next_id>` and bump the
counter (the bump happens before the spawn attempt, so a failed spawn still
consumes the id); on successful spawn (oracle `spawnOk`) register the process,
otherwise fail. -/
def TerminalManager.create_terminal (m : TerminalManager) (spawnOk : Bool)
    (command : String) : Except String String × TerminalManager :=
  let id := mkTermId m.next_id
  let m2 : TerminalManager := { m with next_id := m.next_id + 1 }
  if spawnOk then
    (.ok id, { m2 with terminals := tmInsert id ⟨[], ""⟩ m2.terminals })
  else
    (.error ("Failed to spawn terminal command: " ++ command), m2)

/-- `TerminalManager::get_output`: fail on an unknown id; otherwise drain all
queued chunks into the accumulated buffer, apply the bounded-buffer cap, and
return and clear the buffer. -/
def TerminalManager.get_output (m : TerminalManager) (id : String) :
    Except String (String × TerminalManager) :=
  match tmLookup m.terminals id with
  | none => .error ("Unknown terminal: " ++ id)
  | some t =>
    let acc := t.queued.foldl (fun a c => a ++ c) t.accumulated_output
    let acc := cap_output acc MAX_ACCUMULATED_OUTPUT
    .ok (acc, { m with terminals := tmInsert id ⟨[], ""⟩ m.terminals })

/-- `TerminalManager::wait_for_exit`: fail on an unknown id; otherwise return
the process's exit code, `-1` when unavailable (oracle `code`). The map is
unchanged. -/
def TerminalManager.wait_for_exit (m : TerminalManager) (id : String)
    (code : Option Int) : Except String Int :=
  match tmLookup m.terminals id with
  | none => .error ("Unknown terminal: " ++ id)
  | some _ => .ok (code.getD (-1))

/-- `TerminalManager::release`: fail on an unknown id; otherwise remove the
terminal's state. -/
def TerminalManager.release (m : TerminalManager) (id : String) :
    Except String TerminalManager :=
  match tmLookup m.terminals id with
  | none => .error ("Unknown terminal: " ++ id)
  | some _ => .ok { m with terminals := tmErase id m.terminals }

/-- `TerminalManager::kill`: fail on an unknown id; otherwise signal the child
(no bookkeeping change). -/
def TerminalManager.kill (m : TerminalManager) (id : String) : Except String Unit :=
  match tmLookup m.terminals id with
  | none => .error ("Unknown terminal: " ++ id)
  | some _ => .ok ()

/-- One observable operation on a `TerminalManager`, with the oracle data its
real counterpart would obtain from the operating system. -/
inductive TmOp where
  | create (spawnOk : Bool) (command : String)
  | getOutput (id : String)
  | waitForExit (id : String) (code : Option Int)
  | release (id : String)
  | kill (id : String)
deriving DecidableEq, Repr

/-- Apply one operation to the manager; the second component is the id
returned by a successful `create_terminal`, `none` otherwise. -/
def tmStep (m : TerminalManager) : TmOp → TerminalManager × Option String
  | .create spawnOk command =>
    match m.create_terminal spawnOk command with
    | (.ok id, m2) => (m2, some id)
    | (.error _, m2) => (m2, none)
  | .getOutput id =>
    match m.get_output id with
    | .ok (_, m2) => (m2, none)
    | .error _ => (m, none)
  | .waitForExit _ _ => (m, none)
  | .release id =>
    match m.release id with
    | .ok m2 => (m2, none)
    | .error _ => (m, none)
  | .kill _ => (m, none)

/-- Run a sequence of operations, collecting the ids handed out by
`create_terminal` in order. -/
def tmRun (m : TerminalManager) : List TmOp → TerminalManager × List String
  | [] => (m, [])
  | op :: rest =>
    let s := tmStep m op
    let r := tmRun s.1 rest
    (r.1, s.2.toList ++ r.2)

/-- The ids a run hands out, predicted from the counter alone: the `k`-th
`create` call (counting every call, failed spawns included) is assigned
`term-<start + k>`, and exactly the successful calls hand their id out. -/
def specIds (n : Nat) : List TmOp → List String
  | [] => []
  | .create spawnOk _ :: rest =>
    (if spawnOk then [mkTermId n] else []) ++ specIds (n + 1) rest
  | _ :: rest => specIds n rest

/-- Every key of the map is an already-allocated id: `term-<j>` for some
`j` below the counter. -/
def TmInv (m : TerminalManager) : Prop :=
  ∀ k t, tmLookup m.terminals k = some t → ∃ j, j < m.next_id ∧ k = mkTermId j

/-! ## Capability client: `src/crates/cyril-core/src/client.rs`

The client runs on the Windows host, where `path::to_native` is `wsl_to_win`;
filesystem and process effects are oracles, and what was attempted is
recorded in the result so the theorems can speak about it. -/

/-- `path::to_native` (Windows configuration): agent path to host path. -/
def to_native (s : String) : String := ⟨wsl_to_win s.data⟩

/-- The Before-context `read_text_file` builds. -/
def readBeforeCtx (p : String) : HookContext :=
  ⟨.FsRead, .Before, some (to_native p), none, none⟩

/-- The Before-context `write_text_file` builds. -/
def writeBeforeCtx (p content : String) : HookContext :=
  ⟨.FsWrite, .Before, some (to_native p), some content, none⟩

/-- The Before-context `create_terminal` builds. -/
def termBeforeCtx (command : String) : HookContext :=
  ⟨.Terminal, .Before, none, none, some command⟩

/-- Result of a `fs/read_text_file` capability call: the protocol result and
whether the underlying filesystem read was attempted. -/
structure ReadOutcome where
  result : Except String String
  effectRan : Bool
deriving Repr

/-- `KiroClient::read_text_file`: translate the path, run Before-hooks, fail
only on `Blocked` (any other hook result proceeds), then perform the read
(oracle `fsRead`). -/
def KiroClient.read_text_file (hooks : List Hook) (fsRead : String → Except String String)
    (p : String) : ReadOutcome :=
  let native := to_native p
  match run_before hooks (readBeforeCtx p) with
  | .Blocked reason => ⟨.error reason, false⟩
  | _ =>
    match fsRead native with
    | .ok content => ⟨.ok content, true⟩
    | .error e => ⟨.error e, true⟩

/-- Result of a `fs/write_text_file` capability call: the protocol result,
the `(path, content)` actually handed to the filesystem (if any), and the
After-hook feedback texts forwarded to the consumer. -/
structure WriteOutcome where
  result : Except String Unit
  written : Option (String × String)
  feedback : List String
deriving Repr

/-- `KiroClient::write_text_file`: translate the path, run Before-hooks
(`Blocked` fails the call, `ModifiedArgs` with content substitutes it, any
other result proceeds with the original content), perform the write (oracle
`fsWrite`), then run After-hooks and collect their `FeedbackPrompt` texts. -/
def KiroClient.write_text_file (hooks : List Hook)
    (fsWrite : String → String → Except String Unit) (p c : String) : WriteOutcome :=
  let native := to_native p
  let go : String → WriteOutcome := fun content =>
    match fsWrite native content with
    | .error e => ⟨.error e, some (native, content), []⟩
    | .ok () =>
      let afterCtx : HookContext := ⟨.FsWrite, .After, some native, some content, none⟩
      let fb := (run_after hooks afterCtx).filterMap fun r =>
        match r with
        | .FeedbackPrompt text => some text
        | _ => none
      ⟨.ok (), some (native, content), fb⟩
  match run_before hooks (writeBeforeCtx p c) with
  | .Blocked reason => ⟨.error reason, none, []⟩
  | .ModifiedArgs (some c2) => go c2
  | _ => go c

/-- `KiroClient::create_terminal`: run Before-hooks on the command, fail only
on `Blocked`, otherwise delegate to the terminal manager; the last component
records whether the spawn was attempted. -/
def KiroClient.create_terminal (hooks : List Hook) (m : TerminalManager)
    (spawnOk : Bool) (command : String) :
    Except String String × TerminalManager × Bool :=
  match run_before hooks (termBeforeCtx command) with
  | .Blocked reason => (.error reason, m, false)
  | _ =>
    let r := m.create_terminal spawnOk command
    (r.1, r.2, true)

/-- `KiroClient::terminal_output`: validate the id against the manager and
return the drained output, always with `truncated := false` (the literal
`false` of `TerminalOutputResponse::new(output, false)`). -/
def KiroClient.terminal_output (m : TerminalManager) (id : String) :
    Except String (String × Bool) × TerminalManager :=
  match m.get_output id with
  | .error e => (.error e, m)
  | .ok (out, m2) => (.ok (out, false), m2)

/-! ## Filesystem writes: `src/crates/cyril-core/src/capabilities/fs.rs`

A minimal filesystem model for `tokio::fs` semantics: paths are component
lists; `create_dir_all` creates a directory and all its ancestors; a plain
file write requires the parent directory to exist. -/

/-- Filesystem state: the set of existing directories (the root `[]` always
exists) and the files with their contents. -/
structure FsState where
  dirs : List (List String)
  files : List (List String × String)

/-- Whether a directory exists (the root always does). -/
def dirExists (fs : FsState) (d : List String) : Prop :=
  d = [] ∨ d ∈ fs.dirs

instance (fs : FsState) (d : List String) : Decidable (dirExists fs d) := by
  unfold dirExists
  infer_instance

/-- `Path::parent`: drop the last component; `none` for the empty path. -/
def pathParent (p : List String) : Option (List String) :=
  if p.isEmpty then none else some p.dropLast

/-- `tokio::fs::create_dir_all`: create the directory and every missing
ancestor (all prefixes of the component list become existing directories). -/
def create_dir_all (fs : FsState) (d : List String) : FsState :=
  { fs with dirs := d.inits ++ fs.dirs }

/-- A plain file write (`tokio::fs::write`): fails when the parent directory
does not exist, otherwise records the file. -/
def fsWriteRaw (fs : FsState) (p : List String) (content : String) :
    Except String FsState :=
  if dirExists fs p.dropLast then
    .ok { fs with files := (p, content) :: fs.files.filter fun f => f.1 ≠ p }
  else
    .error "No such file or directory"

/-- `capabilities::fs::write_text_file`: create the parent directory chain
first (when the path has a parent), then write the file. -/
def write_text_file (fs : FsState) (p : List String) (content : String) :
    Except String FsState :=
  let fs2 := match pathParent p with
    | some parent => create_dir_all fs parent
    | none => fs
  fsWriteRaw fs2 p content

/-! ## Theorems -/

theorem matchingHooks_cons_pos {t : HookTiming} {h : Hook} {ctx : HookContext}
    (rest : List Hook) (hm : h.timing = t ∧ h.target = ctx.target) :
    matchingHooks t (h :: rest) ctx = h :: matchingHooks t rest ctx := by
  simp [matchingHooks, List.filter_cons, hm]

theorem matchingHooks_cons_neg {t : HookTiming} {h : Hook} {ctx : HookContext}
    (rest : List Hook) (hm : ¬(h.timing = t ∧ h.target = ctx.target)) :
    matchingHooks t (h :: rest) ctx = matchingHooks t rest ctx := by
  simp [matchingHooks, List.filter_cons, hm]

theorem run_before_spec_cons_pos {h : Hook} {ctx : HookContext} (rest : List Hook)
    (hm : h.timing = .Before ∧ h.target = ctx.target) :
    run_before_spec (h :: rest) ctx =
      match h.run ctx with
      | .Continue => run_before_spec rest ctx
      | r => r := by
  unfold run_before_spec
  rw [matchingHooks_cons_pos rest hm, List.map_cons, List.find?_cons]
  cases h.run ctx <;> simp [HookResult.isCont]

theorem run_before_spec_cons_neg {h : Hook} {ctx : HookContext} (rest : List Hook)
    (hm : ¬(h.timing = .Before ∧ h.target = ctx.target)) :
    run_before_spec (h :: rest) ctx = run_before_spec rest ctx := by
  unfold run_before_spec
  rw [matchingHooks_cons_neg rest hm]

theorem run_after_spec_cons_pos {h : Hook} {ctx : HookContext} (rest : List Hook)
    (hm : h.timing = .After ∧ h.target = ctx.target) :
    run_after_spec (h :: rest) ctx =
      match h.run ctx with
      | .Continue => run_after_spec rest ctx
      | r => r :: run_after_spec rest ctx := by
  unfold run_after_spec
  rw [matchingHooks_cons_pos rest hm, List.map_cons, List.filter_cons]
  cases h.run ctx <;> simp [HookResult.isCont]

theorem run_after_spec_cons_neg {h : Hook} {ctx : HookContext} (rest : List Hook)
    (hm : ¬(h.timing = .After ∧ h.target = ctx.target)) :
    run_after_spec (h :: rest) ctx = run_after_spec rest ctx := by
  unfold run_after_spec
  rw [matchingHooks_cons_neg rest hm]

theorem run_before_eq_spec (hooks : List Hook) (ctx : HookContext) :
    run_before hooks ctx = run_before_spec hooks ctx := by
  induction hooks with
  | nil => rfl
  | cons h rest ih =>
    by_cases hm : h.timing = .Before ∧ h.target = ctx.target
    · rw [run_before, if_pos hm, run_before_spec_cons_pos rest hm]
      cases h.run ctx <;> simp [ih]
    · rw [run_before, if_neg hm, run_before_spec_cons_neg rest hm, ih]

theorem run_after_eq_spec (hooks : List Hook) (ctx : HookContext) :
    run_after hooks ctx = run_after_spec hooks ctx := by
  induction hooks with
  | nil => rfl
  | cons h rest ih =>
    by_cases hm : h.timing = .After ∧ h.target = ctx.target
    · rw [run_after, if_pos hm, run_after_spec_cons_pos rest hm]
      cases h.run ctx <;> simp [ih]
    · rw [run_after, if_neg hm, run_after_spec_cons_neg rest hm, ih]

/-- C2: `run_before` iterates hooks in registration order over those whose
`(timing, target)` equals `(Before, ctx.target)` and returns the first
non-`Continue` result immediately (`Continue` when there is no match or all
return `Continue`); `run_after` runs every hook matching `(After, ctx.target)`
with no short-circuit and returns all non-`Continue` results in registration
order (possibly empty). -/
theorem claim_C2_registry_dispatch (hooks : List Hook) (ctx : HookContext) :
    run_before hooks ctx = run_before_spec hooks ctx ∧
    run_after hooks ctx = run_after_spec hooks ctx :=
  ⟨run_before_eq_spec hooks ctx, run_after_eq_spec hooks ctx⟩

theorem ShellHook.run_eq_interpret {h : ShellHook} {ctx : HookContext}
    (hF : ctx.path = none ∨ ∃ p, ctx.path = some p ∧ h.matches_path p = true)
    (out : ExecOutcome) : h.run ctx out = interpretExec h out := by
  rcases hF with hn | ⟨p, hp, hm⟩
  · simp [ShellHook.run, hn]
  · simp [ShellHook.run, hp, hm]

/-- C3 (amended): for a `ShellHook` whose command executes (the glob filter
passes), a non-zero exit with feedback yields `FeedbackPrompt` regardless of
timing; a non-zero exit without feedback yields `Blocked` for a Before hook and
`Continue` for an After hook; a zero exit with feedback and combined output
that is non-blank (non-empty after trimming whitespace) yields
`FeedbackPrompt`, otherwise `Continue`; a spawn failure yields `Blocked` for a
Before hook (fail-closed) and `Continue` for an After hook. -/
theorem claim_C3_shell_hook_interpretation (h : ShellHook) (ctx : HookContext)
    (hF : ctx.path = none ∨ ∃ p, ctx.path = some p ∧ h.matches_path p = true) :
    (∀ code stdout stderr, h.feedback = true →
        h.run ctx (.ok false code stdout stderr)
          = .FeedbackPrompt (failMsg h code stdout stderr)) ∧
    (∀ code stdout stderr, h.feedback = false → h.timing = .Before →
        h.run ctx (.ok false code stdout stderr)
          = .Blocked (failMsg h code stdout stderr)) ∧
    (∀ code stdout stderr, h.feedback = false → h.timing = .After →
        h.run ctx (.ok false code stdout stderr) = .Continue) ∧
    (∀ code stdout stderr, h.feedback = true → strTrim (stdout ++ stderr) ≠ "" →
        h.run ctx (.ok true code stdout stderr)
          = .FeedbackPrompt (feedbackMsg h stdout stderr)) ∧
    (∀ code stdout stderr, h.feedback = false ∨ strTrim (stdout ++ stderr) = "" →
        h.run ctx (.ok true code stdout stderr) = .Continue) ∧
    (∀ e, h.timing = .Before →
        h.run ctx (.spawnErr e) = .Blocked (spawnFailMsg h e)) ∧
    (∀ e, h.timing = .After → h.run ctx (.spawnErr e) = .Continue) := by
  refine ⟨?_, ?_, ?_, ?_, ?_, ?_, ?_⟩
  · intro code stdout stderr hfb
    rw [ShellHook.run_eq_interpret hF]
    simp [interpretExec, hfb]
  · intro code stdout stderr hfb ht
    rw [ShellHook.run_eq_interpret hF]
    simp [interpretExec, hfb, ht]
  · intro code stdout stderr hfb ht
    rw [ShellHook.run_eq_interpret hF]
    simp [interpretExec, hfb, ht]
  · intro code stdout stderr hfb hne
    rw [ShellHook.run_eq_interpret hF]
    simp [interpretExec, hfb, hne]
  · intro code stdout stderr hc
    rw [ShellHook.run_eq_interpret hF]
    rcases hc with hfb | he
    · simp [interpretExec, hfb]
    · simp [interpretExec, he]
  · intro e ht
    rw [ShellHook.run_eq_interpret hF]
    simp [interpretExec, ht]
  · intro e ht
    rw [ShellHook.run_eq_interpret hF]
    simp [interpretExec, ht]

/-- C3 counterexample to the claim as stated: a feedback-enabled hook whose
command exits zero with non-empty (but all-whitespace) combined output returns
`Continue`, not `FeedbackPrompt`: the code tests emptiness after trimming. -/
theorem claim_C3_counterexample :
    ShellHook.run
        ⟨"h", "true", true, HookTiming.Before, HookTarget.FsWrite, .MatchAll⟩
        ⟨.FsWrite, .Before, none, none, none⟩
        (.ok true (some 0) " " "") = .Continue ∧
    (" " ++ "" : String) ≠ "" := by
  exact ⟨rfl, by decide⟩

theorem claim_C3_witness :
    ShellHook.run
        ⟨"f", "cmd", true, HookTiming.After, HookTarget.FsWrite, .MatchAll⟩
        ⟨.FsWrite, .After, none, none, none⟩
        (.ok false (some 2) "bad" "")
      = .FeedbackPrompt "Hook 'f' failed (exit 2):\nbad" ∧
    ShellHook.run
        ⟨"b", "cmd", false, HookTiming.Before, HookTarget.FsWrite, .MatchAll⟩
        ⟨.FsWrite, .Before, none, none, none⟩
        (.ok false (some 1) "" "err")
      = .Blocked "Hook 'b' failed (exit 1):\nerr" ∧
    ShellHook.run
        ⟨"g", "cmd", true, HookTiming.After, HookTarget.FsWrite, .MatchAll⟩
        ⟨.FsWrite, .After, none, none, none⟩
        (.ok true (some 0) "lint passed" "")
      = .FeedbackPrompt "Hook 'g' output:\nlint passed" ∧
    ShellHook.run
        ⟨"s", "cmd", false, HookTiming.Before, HookTarget.FsWrite, .MatchAll⟩
        ⟨.FsWrite, .Before, none, none, none⟩
        (.spawnErr "no such file")
      = .Blocked "Hook 's' failed to execute: no such file" := by
  refine ⟨?_, ?_, ?_, ?_⟩
  · exact (claim_C3_shell_hook_interpretation _ _ (Or.inl rfl)).1 (some 2) "bad" "" rfl
  · exact (claim_C3_shell_hook_interpretation _ _ (Or.inl rfl)).2.1 (some 1) "" "err" rfl rfl
  · exact (claim_C3_shell_hook_interpretation _ _ (Or.inl rfl)).2.2.2.1 (some 0)
      "lint passed" "" rfl (by decide)
  · exact (claim_C3_shell_hook_interpretation _ _ (Or.inl rfl)).2.2.2.2.2.1
      "no such file" rfl

/-- C6: a `ShellHook` given a context with a path returns `Continue` without
executing its command unless the pattern matches the full path string or the
filename alone; an uncompilable glob matches no path at all; and with no path
in the context the filter step is skipped and the hook always fires (its result
is the interpretation of the command's outcome). -/
theorem claim_C6_glob_filter (h : ShellHook) (ctx : HookContext) :
    (∀ p m out, h.glob = .Pattern m → ctx.path = some p →
        (m p || (match fileName p with | some f => m f | none => false)) = false →
        h.run ctx out = .Continue) ∧
    (∀ p, h.glob = .Invalid → h.matches_path p = false) ∧
    (∀ p out, h.glob = .Invalid → ctx.path = some p → h.run ctx out = .Continue) ∧
    (∀ out, ctx.path = none → h.run ctx out = interpretExec h out) := by
  refine ⟨?_, ?_, ?_, ?_⟩
  · intro p m out hg hp hnm
    have hm : h.matches_path p = false := by
      simp only [ShellHook.matches_path, hg]
      exact hnm
    simp [ShellHook.run, hp, hm]
  · intro p hg
    simp [ShellHook.matches_path, hg]
  · intro p out hg hp
    have hm : h.matches_path p = false := by simp [ShellHook.matches_path, hg]
    simp [ShellHook.run, hp, hm]
  · intro out hn
    simp [ShellHook.run, hn]

theorem claim_C6_witness :
    ShellHook.run
        ⟨"g", "cmd", false, HookTiming.Before, HookTarget.FsWrite,
          .Pattern (fun s => s = "main.rs")⟩
        ⟨.FsWrite, .Before, some "src/main.py", none, none⟩
        (.ok false (some 1) "" "") = .Continue ∧
    ShellHook.matches_path
        ⟨"i", "cmd", false, HookTiming.Before, HookTarget.FsWrite, .Invalid⟩
        "anything.rs" = false ∧
    ShellHook.run
        ⟨"i", "cmd", false, HookTiming.Before, HookTarget.FsWrite, .Invalid⟩
        ⟨.FsWrite, .Before, some "anything.rs", none, none⟩
        (.ok false (some 1) "" "") = .Continue ∧
    ShellHook.run
        ⟨"n", "cmd", false, HookTiming.Before, HookTarget.FsWrite,
          .Pattern (fun s => s = "main.rs")⟩
        ⟨.FsWrite, .Before, none, none, none⟩
        (.ok false (some 1) "" "")
      = interpretExec
          ⟨"n", "cmd", false, HookTiming.Before, HookTarget.FsWrite,
            .Pattern (fun s => s = "main.rs")⟩
          (.ok false (some 1) "" "") := by
  refine ⟨?_, ?_, ?_, ?_⟩
  · exact (claim_C6_glob_filter _ _).1 "src/main.py" _ _ rfl rfl (by decide)
  · exact (claim_C6_glob_filter ⟨"i", "cmd", false, HookTiming.Before,
      HookTarget.FsWrite, .Invalid⟩ ⟨.FsWrite, .Before, some "anything.rs", none, none⟩).2.1
      "anything.rs" rfl
  · exact (claim_C6_glob_filter _ _).2.2.1 "anything.rs" _ rfl rfl
  · exact (claim_C6_glob_filter _ _).2.2.2 _ rfl

theorem charToNat_ofNat (n : Nat) (h : n.isValidChar) : (Char.ofNat n).toNat = n := by
  simp [Char.ofNat, h]
  exact rfl

theorem charNe_of_toNat_ne {c d : Char} (h : c.toNat ≠ d.toNat) : c ≠ d :=
  fun hc => h (by rw [hc])

theorem alpha_toNat_lt {c : Char} (h : c.isAlpha = true) : c.toNat < 128 := by
  simp only [Char.isAlpha, Char.isUpper, Char.isLower, Bool.or_eq_true, Bool.and_eq_true,
    decide_eq_true_eq] at h
  change c.val.toNat < 128
  rcases h with ⟨h1, h2⟩ | ⟨h1, h2⟩
  · have g1 : c.val.toNat ≤ 90 := h2
    omega
  · have g1 : c.val.toNat ≤ 122 := h2
    omega

theorem toUpper_toLower {c : Char} (h : c.isAlpha = true) :
    c.toLower.toUpper = c.toUpper := by
  simp only [Char.isAlpha, Char.isUpper, Char.isLower, Bool.or_eq_true, Bool.and_eq_true,
    decide_eq_true_eq] at h
  rcases h with ⟨h1, h2⟩ | ⟨h1, h2⟩
  · have g1 : (65:Nat) ≤ c.toNat := h1
    have g2 : c.toNat ≤ 90 := h2
    have hv : (c.toNat + 32).isValidChar := Or.inl (by omega)
    have hlow : c.toLower = Char.ofNat (c.toNat + 32) := by
      unfold Char.toLower
      exact if_pos ⟨g1, g2⟩
    have hup : c.toUpper = c := by
      unfold Char.toUpper
      exact if_neg (by omega)
    rw [hlow, hup]
    unfold Char.toUpper
    rw [charToNat_ofNat _ hv]
    rw [if_pos (by constructor <;> omega)]
    have heq : c.toNat + 32 - 32 = c.toNat := by omega
    rw [heq, Char.ofNat_toNat]
  · have g1 : (97:Nat) ≤ c.toNat := h1
    have hlow : c.toLower = c := by
      unfold Char.toLower
      exact if_neg (by omega)
    rw [hlow]

theorem toLower_toNat_lt {c : Char} (h : c.isAlpha = true) : c.toLower.toNat < 128 := by
  simp only [Char.isAlpha, Char.isUpper, Char.isLower, Bool.or_eq_true, Bool.and_eq_true,
    decide_eq_true_eq] at h
  rcases h with ⟨h1, h2⟩ | ⟨h1, h2⟩
  · have g1 : (65:Nat) ≤ c.toNat := h1
    have g2 : c.toNat ≤ 90 := h2
    have hv : (c.toNat + 32).isValidChar := Or.inl (by omega)
    have hlow : c.toLower = Char.ofNat (c.toNat + 32) := by
      unfold Char.toLower
      exact if_pos ⟨g1, g2⟩
    rw [hlow, charToNat_ofNat _ hv]
    omega
  · have g0 : (97:Nat) ≤ c.toNat := h1
    have g1 : c.toNat ≤ 122 := h2
    have hlow : c.toLower = c := by
      unfold Char.toLower
      exact if_neg (by omega)
    rw [hlow]
    change c.val.toNat < 128
    have g2 : c.val.toNat ≤ 122 := h2
    omega

theorem toUpper_toNat_of_isLower {c : Char} (h : c.isLower = true) :
    c.toUpper.toNat = c.toNat - 32 := by
  simp only [Char.isLower, Bool.and_eq_true, decide_eq_true_eq] at h
  obtain ⟨h1, h2⟩ := h
  have g1 : (97:Nat) ≤ c.toNat := h1
  have g2 : c.toNat ≤ 122 := h2
  have hv : (c.toNat - 32).isValidChar := Or.inl (by omega)
  have hup : c.toUpper = Char.ofNat (c.toNat - 32) := by
    unfold Char.toUpper
    exact if_pos ⟨g1, g2⟩
  rw [hup, charToNat_ofNat _ hv]

theorem toLower_toUpper_of_isLower {c : Char} (h : c.isLower = true) :
    c.toUpper.toLower = c := by
  simp only [Char.isLower, Bool.and_eq_true, decide_eq_true_eq] at h
  obtain ⟨h1, h2⟩ := h
  have g1 : (97:Nat) ≤ c.toNat := h1
  have g2 : c.toNat ≤ 122 := h2
  have hv : (c.toNat - 32).isValidChar := Or.inl (by omega)
  have hup : c.toUpper = Char.ofNat (c.toNat - 32) := by
    unfold Char.toUpper
    exact if_pos ⟨g1, g2⟩
  rw [hup]
  unfold Char.toLower
  rw [charToNat_ofNat _ hv, if_pos (by constructor <;> omega)]
  have heq : c.toNat - 32 + 32 = c.toNat := by omega
  rw [heq, Char.ofNat_toNat]

theorem stripExtPfx_cons_ne {c : Char} (l : List Char) (hc : c ≠ '\\') :
    stripExtPfx (c :: l) = c :: l := by
  rw [stripExtPfx.eq_def]
  split
  · rename_i rest heq
    injection heq with h1 h2
    exact absurd h1 hc
  · rfl

theorem sepToSlash_of_sep {c : Char} (h : c = '\\' ∨ c = '/') : sepToSlash c = '/' := by
  rcases h with rfl | rfl <;> rfl

theorem sepToSlash_slashToSep {c : Char} (h : c ≠ '\\') :
    sepToSlash (slashToSep c) = c := by
  by_cases hc : c = '/'
  · subst hc; rfl
  · simp [slashToSep, sepToSlash, hc, h]

theorem slashToSep_sepToSlash (c : Char) : slashToSep (sepToSlash c) = normSep c := by
  by_cases hb : c = '\\'
  · subst hb; rfl
  · by_cases hs : c = '/'
    · subst hs; rfl
    · simp [sepToSlash, slashToSep, normSep, hb, hs]

/-- C4: for every drive-rooted host path (after stripping the extended-length
marker: an ASCII drive letter, a colon, a separator, and a remainder not
itself beginning with a separator), translating host→agent→host yields the
canonical form of the path: drive letter uppercased, backslash separators,
extended-length marker removed. For every mount-rooted agent path
(`/mnt/<lowercase letter>`, optionally followed by `/` and a non-empty,
non-slash-leading, backslash-free remainder), translating agent→host→agent is
the identity. -/
theorem claim_C4_translation_roundtrips :
    (∀ (s : List Char) (d sep : Char) (rest : List Char),
        stripExtPfx s = d :: ':' :: sep :: rest →
        d.isAlpha = true →
        (sep = '\\' ∨ sep = '/') →
        headNotSep rest = true →
        wsl_to_win (win_to_wsl s) = canonicalHost d rest) ∧
    (∀ (d : Char) (tail : List Char),
        d.isLower = true →
        (tail = [] ∨ ∃ (c : Char) (r : List Char),
            tail = '/' :: c :: r ∧ c ≠ '/' ∧ '\\' ∉ c :: r) →
        win_to_wsl (wsl_to_win ('/' :: 'm' :: 'n' :: 't' :: '/' :: d :: tail))
          = '/' :: 'm' :: 'n' :: 't' :: '/' :: d :: tail) := by
  have sepToSlash_bs : sepToSlash '\\' = '/' := rfl
  constructor
  · intro s d sep rest hs hAlpha hsep hHead
    have hd128 : d.toNat < 128 := alpha_toNat_lt hAlpha
    have hdl128 : d.toLower.toNat < 128 := toLower_toNat_lt hAlpha
    cases rest with
    | nil =>
      have hwin : win_to_wsl s = ['/', 'm', 'n', 't', '/', d.toLower] := by
        simp [win_to_wsl, hs, hd128, sepToSlash_of_sep hsep]
      have hback : wsl_to_win ['/', 'm', 'n', 't', '/', d.toLower]
          = [d.toLower.toUpper, ':', '\\'] := by
        simp [wsl_to_win, hdl128]
      rw [hwin, hback, toUpper_toLower hAlpha]
      rfl
    | cons c t =>
      have hc : c ≠ '/' ∧ c ≠ '\\' := by
        simpa [headNotSep] using hHead
      have hmapc : sepToSlash c = c := by simp [sepToSlash, hc.2]
      have hnormc : slashToSep c = normSep c := by
        simp [slashToSep, normSep, hc.1, hc.2]
      have hwin : win_to_wsl s
          = '/' :: 'm' :: 'n' :: 't' :: '/' :: d.toLower :: '/' :: c :: t.map sepToSlash := by
        simp [win_to_wsl, hs, hd128, sepToSlash_of_sep hsep, hmapc, hc.1]
      have hback : wsl_to_win
            ('/' :: 'm' :: 'n' :: 't' :: '/' :: d.toLower :: '/' :: c :: t.map sepToSlash)
          = d.toLower.toUpper :: ':' :: '\\' :: (c :: t.map sepToSlash).map slashToSep := by
        simp [wsl_to_win, hdl128]
      rw [hwin, hback, toUpper_toLower hAlpha]
      unfold canonicalHost
      simp only [List.map_cons, List.map_map, hnormc, List.cons.injEq, true_and]
      exact List.map_congr_left fun x _ => slashToSep_sepToSlash x
  · intro d tail hLower hTail
    have hAlpha : d.isAlpha = true := by
      simp [Char.isAlpha, hLower]
    have hd128 : d.toNat < 128 := alpha_toNat_lt hAlpha
    have hup : d.toUpper.toNat = d.toNat - 32 := toUpper_toNat_of_isLower hLower
    have h97 : (97:Nat) ≤ d.toNat := by
      simp only [Char.isLower, Bool.and_eq_true, decide_eq_true_eq] at hLower
      exact hLower.1
    have hbounds : (97:Nat) ≤ d.toNat ∧ d.toNat ≤ 122 := by
      simp only [Char.isLower, Bool.and_eq_true, decide_eq_true_eq] at hLower
      exact ⟨hLower.1, hLower.2⟩
    have h92 : ('\\' : Char).toNat = 92 := rfl
    have hupNe : d.toUpper ≠ '\\' := charNe_of_toNat_ne (by rw [hup, h92]; omega)
    have hup128 : d.toUpper.toNat < 128 := by rw [hup]; omega
    rcases hTail with rfl | ⟨c, r, rfl, hcs, hbs⟩
    · have h1 : wsl_to_win ['/', 'm', 'n', 't', '/', d] = [d.toUpper, ':', '\\'] := by
        simp [wsl_to_win, hd128]
      have h2 : win_to_wsl [d.toUpper, ':', '\\']
          = ['/', 'm', 'n', 't', '/', d.toUpper.toLower] := by
        rw [win_to_wsl.eq_def]
        simp [stripExtPfx_cons_ne _ hupNe, hup128, sepToSlash_bs]
      rw [h1, h2, toLower_toUpper_of_isLower hLower]
    · have hmap : ((c :: r).map slashToSep).map sepToSlash = c :: r := by
        rw [List.map_map]
        have hpt : ∀ x ∈ c :: r, (sepToSlash ∘ slashToSep) x = x := by
          intro x hx
          have hxne : x ≠ '\\' := fun hh => hbs (hh ▸ hx)
          simp [Function.comp, sepToSlash_slashToSep hxne]
        rw [List.map_congr_left hpt]
        simp
      have h1 : wsl_to_win ('/' :: 'm' :: 'n' :: 't' :: '/' :: d :: '/' :: c :: r)
          = d.toUpper :: ':' :: '\\' :: (c :: r).map slashToSep := by
        simp [wsl_to_win, hd128]
      have hm2 : List.map sepToSlash ('\\' :: (c :: r).map slashToSep) = '/' :: c :: r := by
        rw [List.map_cons, hmap, sepToSlash_bs]
      have h2 : win_to_wsl (d.toUpper :: ':' :: '\\' :: (c :: r).map slashToSep)
          = '/' :: 'm' :: 'n' :: 't' :: '/' :: d.toUpper.toLower :: '/' :: c :: r := by
        rw [win_to_wsl.eq_def]
        rw [stripExtPfx_cons_ne _ hupNe]
        simp only [hup128, if_true, hm2, List.dropWhile_cons, decide_eq_true_eq, if_pos rfl,
          if_neg hcs, List.isEmpty_cons, Bool.false_eq_true, if_false]
      rw [h1, h2, toLower_toUpper_of_isLower hLower]

theorem claim_C4_witness :
    wsl_to_win (win_to_wsl ('C' :: ':' :: '\\' :: "Users\\foo".data))
      = canonicalHost 'C' "Users\\foo".data ∧
    win_to_wsl (wsl_to_win ('/' :: 'm' :: 'n' :: 't' :: '/' :: 'd' :: "/project".data))
      = '/' :: 'm' :: 'n' :: 't' :: '/' :: 'd' :: "/project".data := by
  constructor
  · exact claim_C4_translation_roundtrips.1 ('C' :: ':' :: '\\' :: "Users\\foo".data)
      'C' '\\' "Users\\foo".data rfl (by decide) (Or.inl rfl) (by decide)
  · exact claim_C4_translation_roundtrips.2 'd' "/project".data (by decide)
      (Or.inr ⟨'p', "roject".data, rfl, by decide, by decide⟩)

theorem stripExtPfx_unc {c : Char} (rest : List Char) (hc : c ≠ '?') :
    stripExtPfx ('\\' :: '\\' :: c :: rest) = '\\' :: '\\' :: c :: rest := by
  rw [stripExtPfx.eq_def]
  split
  · rename_i r heq
    injection heq with h1 h2
    injection h2 with h3 h4
    injection h4 with h5 h6
    exact absurd h5 hc
  · rfl

/-- C8: `win_to_wsl` strips the extended-length marker before drive detection
(`\\?\C:\Users\foo` becomes `/mnt/c/Users/foo`), and a UNC-style path
(`\\<server>\...`, whose third character is not the `?` of the marker) is never
turned into a mount form: the windows-path detector rejects it (so payload
rewriting leaves the string untouched), direct translation only normalises its
separators, and the result is never detected as a mount path. -/
theorem claim_C8_extended_and_unc :
    win_to_wsl "\\\\?\\C:\\Users\\foo".data = "/mnt/c/Users/foo".data ∧
    (∀ (c : Char) (rest : List Char), c ≠ '?' →
        looks_like_windows_path ('\\' :: '\\' :: c :: rest) = false ∧
        translate_paths_in_json (.str ⟨'\\' :: '\\' :: c :: rest⟩) .WinToWsl
          = .str ⟨'\\' :: '\\' :: c :: rest⟩ ∧
        win_to_wsl ('\\' :: '\\' :: c :: rest)
          = ('\\' :: '\\' :: c :: rest).map sepToSlash ∧
        looks_like_wsl_mount_path (win_to_wsl ('\\' :: '\\' :: c :: rest)) = false) := by
  constructor
  · decide
  · intro c rest hc
    have hstrip := stripExtPfx_unc rest hc
    have ha : looks_like_windows_path ('\\' :: '\\' :: c :: rest) = false := by
      unfold looks_like_windows_path
      rw [hstrip]
      rfl
    have hwin : win_to_wsl ('\\' :: '\\' :: c :: rest)
        = ('\\' :: '\\' :: c :: rest).map sepToSlash := by
      unfold win_to_wsl
      rw [hstrip]
      rfl
    refine ⟨ha, ?_, hwin, ?_⟩
    · simp [translate_paths_in_json, translateStr, ha]
    · rw [hwin]
      rfl

theorem claim_C8_witness :
    ('s' : Char) ≠ '?' ∧
    looks_like_windows_path ('\\' :: '\\' :: 's' :: "erver\\share\\file.txt".data) = false ∧
    translate_paths_in_json
        (.str ⟨'\\' :: '\\' :: 's' :: "erver\\share\\file.txt".data⟩) .WinToWsl
      = .str ⟨'\\' :: '\\' :: 's' :: "erver\\share\\file.txt".data⟩ ∧
    win_to_wsl ('\\' :: '\\' :: 's' :: "erver\\share\\file.txt".data)
      = ('\\' :: '\\' :: 's' :: "erver\\share\\file.txt".data).map sepToSlash ∧
    looks_like_wsl_mount_path
        (win_to_wsl ('\\' :: '\\' :: 's' :: "erver\\share\\file.txt".data)) = false := by
  refine ⟨by decide, ?_⟩
  exact claim_C8_extended_and_unc.2 's' "erver\\share\\file.txt".data (by decide)

/-- C1 counterexample to the claim as stated: a Before-hook on file reads
returning `FeedbackPrompt` does not fail the call — the read succeeds and the
underlying effect is performed (the prompt text is silently discarded). -/
theorem claim_C1_counterexample :
    run_before [⟨"fb", .Before, .FsRead, fun _ => .FeedbackPrompt "do not read"⟩]
        (readBeforeCtx "/mnt/c/x.txt") = .FeedbackPrompt "do not read" ∧
    (KiroClient.read_text_file
        [⟨"fb", .Before, .FsRead, fun _ => .FeedbackPrompt "do not read"⟩]
        (fun _ => .ok "secret") "/mnt/c/x.txt").result = .ok "secret" ∧
    (KiroClient.read_text_file
        [⟨"fb", .Before, .FsRead, fun _ => .FeedbackPrompt "do not read"⟩]
        (fun _ => .ok "secret") "/mnt/c/x.txt").effectRan = true :=
  ⟨rfl, rfl, rfl⟩

/-- C1 (amended): for every capability call that runs Before-hooks (file
read, file write, terminal create), if `run_before` returns `FeedbackPrompt`
the call does not fail: the prompt text is discarded and the underlying
effect is performed with the original arguments, exactly as on `Continue`
(only `Blocked` fails the call before the effect). -/
theorem claim_C1_amended_feedback_ignored :
    (∀ (hooks : List Hook) (fsRead : String → Except String String) (p t : String),
        run_before hooks (readBeforeCtx p) = .FeedbackPrompt t →
        (KiroClient.read_text_file hooks fsRead p).effectRan = true ∧
        (KiroClient.read_text_file hooks fsRead p).result = fsRead (to_native p)) ∧
    (∀ (hooks : List Hook) (fsWrite : String → String → Except String Unit)
        (p c t : String),
        run_before hooks (writeBeforeCtx p c) = .FeedbackPrompt t →
        (KiroClient.write_text_file hooks fsWrite p c).written
          = some (to_native p, c) ∧
        (KiroClient.write_text_file hooks fsWrite p c).result
          = fsWrite (to_native p) c) ∧
    (∀ (hooks : List Hook) (m : TerminalManager) (spawnOk : Bool) (command t : String),
        run_before hooks (termBeforeCtx command) = .FeedbackPrompt t →
        KiroClient.create_terminal hooks m spawnOk command
          = ((m.create_terminal spawnOk command).1,
              (m.create_terminal spawnOk command).2, true)) := by
  refine ⟨?_, ?_, ?_⟩
  · intro hooks fsRead p t h
    unfold KiroClient.read_text_file
    rw [h]
    cases hfs : fsRead (to_native p) <;> simp [hfs]
  · intro hooks fsWrite p c t h
    unfold KiroClient.write_text_file
    rw [h]
    cases hfs : fsWrite (to_native p) c with
    | error e => simp [hfs]
    | ok u => cases u; simp [hfs]
  · intro hooks m spawnOk command t h
    unfold KiroClient.create_terminal
    rw [h]

theorem claim_C1_witness :
    run_before [⟨"fb", .Before, .FsWrite, fun _ => .FeedbackPrompt "warn"⟩]
        (writeBeforeCtx "/mnt/c/a.txt" "body") = .FeedbackPrompt "warn" ∧
    (KiroClient.write_text_file
        [⟨"fb", .Before, .FsWrite, fun _ => .FeedbackPrompt "warn"⟩]
        (fun _ _ => .ok ()) "/mnt/c/a.txt" "body").written
      = some (to_native "/mnt/c/a.txt", "body") ∧
    run_before [⟨"fb", .Before, .Terminal, fun _ => .FeedbackPrompt "warn"⟩]
        (termBeforeCtx "echo hi") = .FeedbackPrompt "warn" ∧
    KiroClient.create_terminal
        [⟨"fb", .Before, .Terminal, fun _ => .FeedbackPrompt "warn"⟩]
        TerminalManager.new true "echo hi"
      = ((TerminalManager.new.create_terminal true "echo hi").1,
          (TerminalManager.new.create_terminal true "echo hi").2, true) ∧
    run_before [⟨"fb", .Before, .FsRead, fun _ => .FeedbackPrompt "warn"⟩]
        (readBeforeCtx "/mnt/c/a.txt") = .FeedbackPrompt "warn" ∧
    (KiroClient.read_text_file
        [⟨"fb", .Before, .FsRead, fun _ => .FeedbackPrompt "warn"⟩]
        (fun _ => .ok "data") "/mnt/c/a.txt").effectRan = true := by
  refine ⟨rfl, ?_, rfl, ?_, rfl, ?_⟩
  · exact (claim_C1_amended_feedback_ignored.2.1
      [⟨"fb", .Before, .FsWrite, fun _ => .FeedbackPrompt "warn"⟩]
      (fun _ _ => .ok ()) "/mnt/c/a.txt" "body" "warn" rfl).1
  · exact claim_C1_amended_feedback_ignored.2.2
      [⟨"fb", .Before, .Terminal, fun _ => .FeedbackPrompt "warn"⟩]
      TerminalManager.new true "echo hi" "warn" rfl
  · exact (claim_C1_amended_feedback_ignored.1
      [⟨"fb", .Before, .FsRead, fun _ => .FeedbackPrompt "warn"⟩]
      (fun _ => .ok "data") "/mnt/c/a.txt" "warn" rfl).1

/-- C10: `write_text_file` first creates any missing parent directories, so a
write to a path whose directory does not yet exist succeeds, creating the
whole directory chain, whereas the plain write alone would fail there. -/
theorem claim_C10_write_creates_parents (fs : FsState) (p : List String) (c : String)
    (hp : p ≠ []) :
    (¬dirExists fs p.dropLast → fsWriteRaw fs p c = .error "No such file or directory") ∧
    ∃ fs2, write_text_file fs p c = .ok fs2 ∧
      (p, c) ∈ fs2.files ∧
      ∀ q ∈ p.dropLast.inits, dirExists fs2 q := by
  constructor
  · intro hnd
    unfold fsWriteRaw
    rw [if_neg hnd]
  · have hpe : p.isEmpty = false := by
      cases p with
      | nil => exact absurd rfl hp
      | cons a l => rfl
    have hparent : pathParent p = some p.dropLast := by
      unfold pathParent
      rw [hpe]
      rfl
    refine ⟨⟨p.dropLast.inits ++ fs.dirs, (p, c) :: fs.files.filter fun f => f.1 ≠ p⟩,
      ?_, ?_, ?_⟩
    · unfold write_text_file
      rw [hparent]
      have hex : dirExists (create_dir_all fs p.dropLast) p.dropLast := by
        unfold create_dir_all dirExists
        simp
      unfold fsWriteRaw
      rw [if_pos hex]
      rfl
    · simp
    · intro q hq
      exact Or.inr (List.mem_append_left _ hq)

theorem claim_C10_witness :
    ["a", "b", "f.txt"] ≠ ([] : List String) ∧
    ∃ fs2, write_text_file ⟨[], []⟩ ["a", "b", "f.txt"] "content" = .ok fs2 ∧
      (["a", "b", "f.txt"], "content") ∈ fs2.files ∧
      ∀ q ∈ (["a", "b", "f.txt"] : List String).dropLast.inits, dirExists fs2 q :=
  ⟨by decide, (claim_C10_write_creates_parents ⟨[], []⟩ ["a", "b", "f.txt"] "content"
    (by decide)).2⟩

/-- C9: every successful `terminal_output` response carries `truncated =
false` — the flag is a hard-coded literal, independent of whether the
1 MiB bounded-buffer cap has already discarded older output. -/
theorem claim_C9_truncated_flag_always_false (m : TerminalManager) (id : String)
    (r : String × Bool) (m2 : TerminalManager)
    (h : KiroClient.terminal_output m id = (.ok r, m2)) : r.2 = false := by
  unfold KiroClient.terminal_output at h
  cases hg : m.get_output id with
  | error e =>
    rw [hg] at h
    injection h with h1 h2
    exact Except.noConfusion h1
  | ok x =>
    obtain ⟨out, m3⟩ := x
    rw [hg] at h
    injection h with h1 h2
    injection h1 with h3
    rw [← h3]

theorem claim_C9_witness :
    KiroClient.terminal_output ⟨[("term-0", ⟨["hello"], ""⟩)], 1⟩ "term-0"
      = (.ok ("hello", false), ⟨[("term-0", ⟨[], ""⟩)], 1⟩) ∧
    ("hello", false).2 = false :=
  ⟨rfl, claim_C9_truncated_flag_always_false ⟨[("term-0", ⟨["hello"], ""⟩)], 1⟩
    "term-0" ("hello", false) ⟨[("term-0", ⟨[], ""⟩)], 1⟩ rfl⟩

theorem utf8Len_append (a b : List Char) :
    utf8Len (a ++ b) = utf8Len a + utf8Len b := by
  induction a with
  | nil => simp [utf8Len]
  | cons c cs ih => simp [utf8Len, ih]; omega

theorem utf8Len_replicate (n : Nat) (c : Char) :
    utf8Len (List.replicate n c) = n * c.utf8Size := by
  induction n with
  | zero => simp [List.replicate, utf8Len]
  | succ k ih => simp [List.replicate, utf8Len, ih]; ring

theorem utf8Len_drop_ceilChars (l : List Char) :
    ∀ s, utf8Len (l.drop (ceilChars l s)) ≤ utf8Len l - s := by
  induction l with
  | nil => intro s; simp [ceilChars, utf8Len]
  | cons c cs ih =>
    intro s
    cases s with
    | zero => simp [ceilChars]
    | succ s' =>
      have hstep : ceilChars (c :: cs) (s' + 1) = 1 + ceilChars cs (s' + 1 - c.utf8Size) :=
        rfl
      rw [hstep]
      have hdrop : (c :: cs).drop (1 + ceilChars cs (s' + 1 - c.utf8Size))
          = cs.drop (ceilChars cs (s' + 1 - c.utf8Size)) := by
        rw [Nat.add_comm]
        rfl
      rw [hdrop]
      have := ih (s' + 1 - c.utf8Size)
      have hc := c.utf8Size_pos
      simp only [utf8Len]
      omega

theorem utf8Len_drop_lt_ceilChars (l : List Char) :
    ∀ s j, j < ceilChars l s → utf8Len l < utf8Len (l.drop j) + s := by
  induction l with
  | nil =>
    intro s j hj
    cases s with
    | zero => simp [ceilChars] at hj
    | succ s' => simp [ceilChars] at hj
  | cons c cs ih =>
    intro s j hj
    cases s with
    | zero => simp [ceilChars] at hj
    | succ s' =>
      have hstep : ceilChars (c :: cs) (s' + 1) = 1 + ceilChars cs (s' + 1 - c.utf8Size) :=
        rfl
      rw [hstep] at hj
      cases j with
      | zero =>
        simp only [List.drop_zero]
        omega
      | succ j' =>
        have hj' : j' < ceilChars cs (s' + 1 - c.utf8Size) := by omega
        have := ih (s' + 1 - c.utf8Size) j' hj'
        have hc := c.utf8Size_pos
        have hbound : ¬(s' + 1 ≤ c.utf8Size) := by
          intro hle
          have : s' + 1 - c.utf8Size = 0 := by omega
          rw [this] at hj'
          simp [ceilChars] at hj'
        have hdrop : (c :: cs).drop (j' + 1) = cs.drop j' := rfl
        rw [hdrop]
        simp only [utf8Len]
        omega

theorem utf8Len_truncMarker : utf8Len truncMarker = 19 := by decide

/-- C5: if the accumulated buffer exceeds the 1 MiB cap, `cap_output`
replaces it with the fixed truncation marker followed by a character-aligned
suffix of the buffer (no multi-byte character is split, so the result is
valid text) whose byte size is at most the cap minus the marker length and
which is the longest such suffix (any earlier cut would exceed that budget);
the whole result stays within the cap. A buffer at or under the cap is left
unchanged. -/
theorem claim_C5_cap_output (buf : List Char) :
    (utf8Len buf ≤ MAX_ACCUMULATED_OUTPUT → capOutput buf MAX_ACCUMULATED_OUTPUT = buf) ∧
    (MAX_ACCUMULATED_OUTPUT < utf8Len buf →
      ∃ k, capOutput buf MAX_ACCUMULATED_OUTPUT = truncMarker ++ buf.drop k ∧
        utf8Len (buf.drop k) ≤ MAX_ACCUMULATED_OUTPUT - utf8Len truncMarker ∧
        (∀ j < k, MAX_ACCUMULATED_OUTPUT - utf8Len truncMarker < utf8Len (buf.drop j)) ∧
        utf8Len (capOutput buf MAX_ACCUMULATED_OUTPUT) ≤ MAX_ACCUMULATED_OUTPUT) := by
  constructor
  · intro hle
    unfold capOutput
    rw [if_pos hle]
  · intro hgt
    have hMAX : MAX_ACCUMULATED_OUTPUT = 1048576 := rfl
    have htm := utf8Len_truncMarker
    have hcap : capOutput buf MAX_ACCUMULATED_OUTPUT
        = truncMarker ++ buf.drop (ceilChars buf
            (utf8Len buf - (MAX_ACCUMULATED_OUTPUT - utf8Len truncMarker))) := by
      unfold capOutput
      rw [if_neg (by omega)]
    refine ⟨ceilChars buf
      (utf8Len buf - (MAX_ACCUMULATED_OUTPUT - utf8Len truncMarker)), hcap, ?_, ?_, ?_⟩
    · have := utf8Len_drop_ceilChars buf
        (utf8Len buf - (MAX_ACCUMULATED_OUTPUT - utf8Len truncMarker))
      omega
    · intro j hj
      have := utf8Len_drop_lt_ceilChars buf
        (utf8Len buf - (MAX_ACCUMULATED_OUTPUT - utf8Len truncMarker)) j hj
      omega
    · rw [hcap, utf8Len_append]
      have := utf8Len_drop_ceilChars buf
        (utf8Len buf - (MAX_ACCUMULATED_OUTPUT - utf8Len truncMarker))
      omega

theorem claim_C5_witness :
    MAX_ACCUMULATED_OUTPUT < utf8Len (List.replicate 1048577 'a') ∧
    ∃ k, capOutput (List.replicate 1048577 'a') MAX_ACCUMULATED_OUTPUT
          = truncMarker ++ (List.replicate 1048577 'a').drop k ∧
        utf8Len ((List.replicate 1048577 'a').drop k)
          ≤ MAX_ACCUMULATED_OUTPUT - utf8Len truncMarker ∧
        (∀ j < k, MAX_ACCUMULATED_OUTPUT - utf8Len truncMarker
          < utf8Len ((List.replicate 1048577 'a').drop j)) ∧
        utf8Len (capOutput (List.replicate 1048577 'a') MAX_ACCUMULATED_OUTPUT)
          ≤ MAX_ACCUMULATED_OUTPUT := by
  have hgt : MAX_ACCUMULATED_OUTPUT < utf8Len (List.replicate 1048577 'a') := by
    rw [utf8Len_replicate]
    decide
  exact ⟨hgt, (claim_C5_cap_output (List.replicate 1048577 'a')).2 hgt⟩

theorem digitChar_toNat {m : Nat} (h : m < 10) : (Nat.digitChar m).toNat = 48 + m := by
  interval_cases m <;> rfl

theorem valRev_decRevAux : ∀ (fuel n : Nat), n ≤ fuel → valRev (decRevAux fuel n) = n := by
  intro fuel
  induction fuel with
  | zero =>
    intro n hn
    have : n = 0 := by omega
    subst this
    rfl
  | succ f ih =>
    intro n hn
    cases n with
    | zero => rfl
    | succ k =>
      have hdiv : (k + 1) / 10 < k + 1 := Nat.div_lt_self (by omega) (by omega)
      have hmod : (k + 1) % 10 < 10 := Nat.mod_lt _ (by omega)
      simp only [decRevAux, valRev, digitChar_toNat hmod, ih ((k + 1) / 10) (by omega)]
      omega

theorem valRev_decRev (n : Nat) : valRev (decRev n) = n :=
  valRev_decRevAux n n (Nat.le_refl n)

theorem decRev_inj {n m : Nat} (h : decRev n = decRev m) : n = m := by
  have := valRev_decRev n
  rw [h, valRev_decRev] at this
  omega

theorem natDec_inj {n m : Nat} (h : natDec n = natDec m) : n = m := by
  unfold natDec at h
  by_cases hn : n = 0 <;> by_cases hm : m = 0
  · omega
  · rw [if_pos hn, if_neg hm] at h
    have : decRev m = ['0'] := by
      have := congrArg List.reverse h
      simpa using this.symm
    have hv := valRev_decRev m
    rw [this] at hv
    simp [valRev] at hv
    omega
  · rw [if_neg hn, if_pos hm] at h
    have : decRev n = ['0'] := by
      have := congrArg List.reverse h
      simpa using this
    have hv := valRev_decRev n
    rw [this] at hv
    simp [valRev] at hv
    omega
  · rw [if_neg hn, if_neg hm] at h
    exact decRev_inj (by simpa using congrArg List.reverse h)

theorem mkTermId_inj {n m : Nat} (h : mkTermId n = mkTermId m) : n = m := by
  unfold mkTermId at h
  injection h with h1
  injection h1 with _ h2
  injection h2 with _ h3
  injection h3 with _ h4
  injection h4 with _ h5
  injection h5 with _ h6
  exact natDec_inj h6

theorem tmErase_cons (k : String) (kv : String × TerminalProcess)
    (rest : List (String × TerminalProcess)) :
    tmErase k (kv :: rest) = if kv.1 = k then tmErase k rest else kv :: tmErase k rest := by
  by_cases h : kv.1 = k
  · simp [tmErase, List.filter_cons, h]
  · simp [tmErase, List.filter_cons, h]

theorem tmLookup_tmErase (l : List (String × TerminalProcess)) (k id : String) :
    tmLookup (tmErase k l) id = if k = id then none else tmLookup l id := by
  by_cases hkid : k = id
  · subst hkid
    rw [if_pos rfl]
    induction l with
    | nil => simp [tmErase, tmLookup]
    | cons kv rest ih =>
      obtain ⟨k2, t2⟩ := kv
      rw [tmErase_cons]
      by_cases h : k2 = k
      · rw [if_pos h]
        exact ih
      · rw [if_neg h]
        simp only [tmLookup, if_neg h]
        exact ih
  · rw [if_neg hkid]
    induction l with
    | nil => simp [tmErase, tmLookup]
    | cons kv rest ih =>
      obtain ⟨k2, t2⟩ := kv
      rw [tmErase_cons]
      by_cases h : k2 = k
      · rw [if_pos h]
        have h2 : k2 ≠ id := fun hc => hkid (h ▸ hc)
        simp only [tmLookup, if_neg h2]
        exact ih
      · rw [if_neg h]
        simp only [tmLookup]
        by_cases h2 : k2 = id
        · rw [if_pos h2, if_pos h2]
        · rw [if_neg h2, if_neg h2]
          exact ih

theorem tmLookup_tmInsert (l : List (String × TerminalProcess)) (k id : String)
    (t : TerminalProcess) :
    tmLookup (tmInsert k t l) id = if k = id then some t else tmLookup l id := by
  unfold tmInsert
  simp only [tmLookup]
  by_cases hk : k = id
  · rw [if_pos hk, if_pos hk]
  · rw [if_neg hk, if_neg hk, tmLookup_tmErase, if_neg hk]

theorem get_output_inv {m : TerminalManager} {id : String} {o : String}
    {m2 : TerminalManager} (h : m.get_output id = .ok (o, m2)) :
    ∃ t, tmLookup m.terminals id = some t ∧
      m2 = { m with terminals := tmInsert id ⟨[], ""⟩ m.terminals } := by
  unfold TerminalManager.get_output at h
  cases hl : tmLookup m.terminals id with
  | none =>
    rw [hl] at h
    exact Except.noConfusion h
  | some t =>
    rw [hl] at h
    injection h with h1
    injection h1 with ha hb
    exact ⟨t, rfl, hb.symm⟩

theorem release_inv {m : TerminalManager} {id : String} {m2 : TerminalManager}
    (h : m.release id = .ok m2) :
    ∃ t, tmLookup m.terminals id = some t ∧
      m2 = { m with terminals := tmErase id m.terminals } := by
  unfold TerminalManager.release at h
  cases hl : tmLookup m.terminals id with
  | none =>
    rw [hl] at h
    exact Except.noConfusion h
  | some t =>
    rw [hl] at h
    injection h with h1
    exact ⟨t, rfl, h1.symm⟩

theorem tmStep_next_id (m : TerminalManager) (op : TmOp) :
    (tmStep m op).1.next_id
      = match op with
        | .create _ _ => m.next_id + 1
        | _ => m.next_id := by
  cases op with
  | create spawnOk command =>
    cases spawnOk <;> simp [tmStep, TerminalManager.create_terminal]
  | getOutput id =>
    cases hg : m.get_output id with
    | error e => simp [tmStep, hg]
    | ok x =>
      obtain ⟨o, m2⟩ := x
      obtain ⟨t, hl, hm2⟩ := get_output_inv hg
      simp [tmStep, hg, hm2]
  | waitForExit id code => rfl
  | release id =>
    cases hr : m.release id with
    | error e => simp [tmStep, hr]
    | ok m2 =>
      obtain ⟨t, hl, hm2⟩ := release_inv hr
      simp [tmStep, hr, hm2]
  | kill id => rfl

theorem tmStep_next_id_le (m : TerminalManager) (op : TmOp) :
    m.next_id ≤ (tmStep m op).1.next_id := by
  cases op <;> simp [tmStep_next_id]

theorem tmStep_lookup_none {m : TerminalManager} {id : String} {j : Nat} (op : TmOp)
    (hid : id = mkTermId j) (hj : j < m.next_id)
    (h : tmLookup m.terminals id = none) :
    tmLookup (tmStep m op).1.terminals id = none := by
  cases op with
  | create spawnOk command =>
    cases spawnOk with
    | false => simpa [tmStep, TerminalManager.create_terminal] using h
    | true =>
      simp only [tmStep, TerminalManager.create_terminal, if_true]
      rw [tmLookup_tmInsert]
      rw [if_neg ?hne]
      · exact h
      case hne =>
        intro hc
        have : m.next_id = j := mkTermId_inj (hid ▸ hc)
        omega
  | getOutput id2 =>
    cases hg : m.get_output id2 with
    | error e => simpa [tmStep, hg] using h
    | ok x =>
      obtain ⟨o, m2⟩ := x
      obtain ⟨t, hl, hm2⟩ := get_output_inv hg
      have hne : id2 ≠ id := by
        intro hc
        rw [hc, h] at hl
        exact Option.noConfusion hl
      simp only [tmStep, hg, hm2]
      rw [tmLookup_tmInsert, if_neg hne]
      exact h
  | waitForExit id2 code => exact h
  | release id2 =>
    cases hr : m.release id2 with
    | error e => simpa [tmStep, hr] using h
    | ok m2 =>
      obtain ⟨t, hl, hm2⟩ := release_inv hr
      simp only [tmStep, hr, hm2]
      rw [tmLookup_tmErase]
      by_cases hc : id2 = id
      · rw [if_pos hc]
      · rw [if_neg hc]
        exact h
  | kill id2 => exact h

theorem TmInv_step {m : TerminalManager} (op : TmOp) (hInv : TmInv m) :
    TmInv (tmStep m op).1 := by
  cases op with
  | create spawnOk command =>
    cases spawnOk with
    | false =>
      intro k t hk
      have hn : (tmStep m (TmOp.create false command)).1.next_id = m.next_id + 1 := by
        simp [tmStep_next_id]
      simp only [tmStep, TerminalManager.create_terminal, Bool.false_eq_true,
        if_false] at hk
      obtain ⟨j, hj, hkj⟩ := hInv k t hk
      exact ⟨j, by omega, hkj⟩
    | true =>
      intro k t hk
      have hn : (tmStep m (TmOp.create true command)).1.next_id = m.next_id + 1 := by
        simp [tmStep_next_id]
      simp only [tmStep, TerminalManager.create_terminal, if_true] at hk
      rw [tmLookup_tmInsert] at hk
      by_cases hc : mkTermId m.next_id = k
      · exact ⟨m.next_id, by omega, hc.symm⟩
      · rw [if_neg hc] at hk
        obtain ⟨j, hj, hkj⟩ := hInv k t hk
        exact ⟨j, by omega, hkj⟩
  | getOutput id2 =>
    cases hg : m.get_output id2 with
    | error e => simpa [tmStep, hg] using hInv
    | ok x =>
      obtain ⟨o, m2⟩ := x
      obtain ⟨t0, hl, hm2⟩ := get_output_inv hg
      intro k t hk
      simp only [tmStep, hg, hm2] at hk ⊢
      rw [tmLookup_tmInsert] at hk
      by_cases hc : id2 = k
      · obtain ⟨j, hj, hkj⟩ := hInv id2 t0 hl
        exact ⟨j, hj, hc ▸ hkj⟩
      · rw [if_neg hc] at hk
        exact hInv k t hk
  | waitForExit id2 code => exact hInv
  | release id2 =>
    cases hr : m.release id2 with
    | error e => simpa [tmStep, hr] using hInv
    | ok m2 =>
      obtain ⟨t0, hl, hm2⟩ := release_inv hr
      intro k t hk
      simp only [tmStep, hr, hm2] at hk ⊢
      rw [tmLookup_tmErase] at hk
      by_cases hc : id2 = k
      · rw [if_pos hc] at hk
        exact Option.noConfusion hk
      · rw [if_neg hc] at hk
        exact hInv k t hk
  | kill id2 => exact hInv

theorem tmRun_cons (m : TerminalManager) (op : TmOp) (rest : List TmOp) :
    tmRun m (op :: rest)
      = ((tmRun (tmStep m op).1 rest).1,
          (tmStep m op).2.toList ++ (tmRun (tmStep m op).1 rest).2) := rfl

theorem tmRun_lookup_none : ∀ (ops : List TmOp) (m : TerminalManager) (id : String)
    (j : Nat), id = mkTermId j → j < m.next_id → tmLookup m.terminals id = none →
    tmLookup ((tmRun m ops).1).terminals id = none := by
  intro ops
  induction ops with
  | nil => intro m id j hid hj h; exact h
  | cons op rest ih =>
    intro m id j hid hj h
    rw [tmRun_cons]
    exact ih (tmStep m op).1 id j hid
      (Nat.lt_of_lt_of_le hj (tmStep_next_id_le m op))
      (tmStep_lookup_none op hid hj h)

theorem tmRun_TmInv : ∀ (ops : List TmOp) (m : TerminalManager),
    TmInv m → TmInv (tmRun m ops).1 := by
  intro ops
  induction ops with
  | nil => intro m h; exact h
  | cons op rest ih =>
    intro m h
    rw [tmRun_cons]
    exact ih (tmStep m op).1 (TmInv_step op h)

theorem tmRun_ids : ∀ (ops : List TmOp) (m : TerminalManager),
    (tmRun m ops).2 = specIds m.next_id ops := by
  intro ops
  induction ops with
  | nil => intro m; rfl
  | cons op rest ih =>
    intro m
    rw [tmRun_cons]
    cases op with
    | create spawnOk command =>
      cases spawnOk with
      | true =>
        have hstep : tmStep m (.create true command)
            = ({ terminals := tmInsert (mkTermId m.next_id) ⟨[], ""⟩ m.terminals,
                  next_id := m.next_id + 1 }, some (mkTermId m.next_id)) := rfl
        rw [hstep]
        simp only [Option.toList, specIds, ih]
        rfl
      | false =>
        have hstep : tmStep m (.create false command)
            = ({ m with next_id := m.next_id + 1 }, none) := rfl
        rw [hstep]
        simp only [Option.toList, specIds, ih]
        rfl
    | getOutput id2 =>
      cases hg : m.get_output id2 with
      | error e => simp only [tmStep, hg, Option.toList, List.nil_append, ih, specIds]
      | ok x =>
        obtain ⟨o, m2⟩ := x
        obtain ⟨t, hl, hm2⟩ := get_output_inv hg
        simp only [tmStep, hg, Option.toList, List.nil_append, ih, hm2, specIds]
    | waitForExit id2 code =>
      simp only [tmStep, Option.toList, List.nil_append, ih, specIds]
    | release id2 =>
      cases hr : m.release id2 with
      | error e => simp only [tmStep, hr, Option.toList, List.nil_append, ih, specIds]
      | ok m2 =>
        obtain ⟨t, hl, hm2⟩ := release_inv hr
        simp only [tmStep, hr, Option.toList, List.nil_append, ih, hm2, specIds]
    | kill id2 =>
      simp only [tmStep, Option.toList, List.nil_append, ih, specIds]

theorem specIds_mem : ∀ (ops : List TmOp) (n : Nat) (x : String),
    x ∈ specIds n ops → ∃ j, n ≤ j ∧ x = mkTermId j := by
  intro ops
  induction ops with
  | nil => intro n x hx; exact absurd hx (List.not_mem_nil x)
  | cons op rest ih =>
    intro n x hx
    cases op with
    | create spawnOk command =>
      cases spawnOk with
      | true =>
        simp only [specIds, if_true, List.singleton_append, List.mem_cons] at hx
        rcases hx with rfl | hx
        · exact ⟨n, Nat.le_refl n, rfl⟩
        · obtain ⟨j, hj, hxj⟩ := ih (n + 1) x hx
          exact ⟨j, by omega, hxj⟩
      | false =>
        simp only [specIds, Bool.false_eq_true, if_false, List.nil_append] at hx
        obtain ⟨j, hj, hxj⟩ := ih (n + 1) x hx
        exact ⟨j, by omega, hxj⟩
    | getOutput id2 => exact ih n x hx
    | waitForExit id2 code => exact ih n x hx
    | release id2 => exact ih n x hx
    | kill id2 => exact ih n x hx

theorem specIds_nodup : ∀ (ops : List TmOp) (n : Nat), (specIds n ops).Nodup := by
  intro ops
  induction ops with
  | nil => intro n; exact List.nodup_nil
  | cons op rest ih =>
    intro n
    cases op with
    | create spawnOk command =>
      cases spawnOk with
      | true =>
        simp only [specIds, if_true, List.singleton_append]
        refine List.Nodup.cons ?_ (ih (n + 1))
        intro hmem
        obtain ⟨j, hj, hxj⟩ := specIds_mem rest (n + 1) _ hmem
        have : n = j := mkTermId_inj hxj
        omega
      | false =>
        simp only [specIds, Bool.false_eq_true, if_false, List.nil_append]
        exact ih (n + 1)
    | getOutput id2 => exact ih n
    | waitForExit id2 code => exact ih n
    | release id2 => exact ih n
    | kill id2 => exact ih n

/-- C7: for one `TerminalManager` instance, ids are allocated sequentially by
`create_terminal` from the `term-<n>` counter (every create call, failed
spawns included, consumes one number, and exactly the successful calls hand
their id out); the ids handed out over any operation sequence are pairwise
distinct; `get_output`, `wait_for_exit`, `release` and `kill` on an unknown
id always fail; every key ever present is a previously-allocated id below the
counter; and an absent allocated id (for example one just released) stays
absent under any further operations — ids are never reused. -/
theorem claim_C7_terminal_ids :
    (∀ ops : List TmOp, (tmRun TerminalManager.new ops).2 = specIds 0 ops) ∧
    (∀ ops : List TmOp, ((tmRun TerminalManager.new ops).2).Nodup) ∧
    (∀ (m : TerminalManager) (id : String), tmLookup m.terminals id = none →
        m.get_output id = .error ("Unknown terminal: " ++ id) ∧
        (∀ code, m.wait_for_exit id code = .error ("Unknown terminal: " ++ id)) ∧
        m.release id = .error ("Unknown terminal: " ++ id) ∧
        m.kill id = .error ("Unknown terminal: " ++ id)) ∧
    (∀ ops : List TmOp, TmInv (tmRun TerminalManager.new ops).1) ∧
    (∀ (ops : List TmOp) (m : TerminalManager) (id : String) (j : Nat),
        id = mkTermId j → j < m.next_id → tmLookup m.terminals id = none →
        tmLookup ((tmRun m ops).1).terminals id = none) := by
  refine ⟨?_, ?_, ?_, ?_, tmRun_lookup_none⟩
  · intro ops
    exact tmRun_ids ops TerminalManager.new
  · intro ops
    rw [tmRun_ids ops TerminalManager.new]
    exact specIds_nodup ops _
  · intro m id h
    refine ⟨?_, ?_, ?_, ?_⟩
    · unfold TerminalManager.get_output
      rw [h]
    · intro code
      unfold TerminalManager.wait_for_exit
      rw [h]
    · unfold TerminalManager.release
      rw [h]
    · unfold TerminalManager.kill
      rw [h]
  · intro ops
    exact tmRun_TmInv ops TerminalManager.new (fun k t hk => Option.noConfusion hk)

theorem claim_C7_witness :
    specIds 0 [.create true "a", .create false "b", .create true "c", .release "term-0"]
      = ["term-0", "term-2"] ∧
    (tmRun TerminalManager.new
        [.create true "a", .create false "b", .create true "c", .release "term-0"]).2
      = specIds 0
          [.create true "a", .create false "b", .create true "c", .release "term-0"] ∧
    TerminalManager.new.get_output "term-5"
      = .error ("Unknown terminal: " ++ "term-5") ∧
    TerminalManager.new.release "term-5"
      = .error ("Unknown terminal: " ++ "term-5") ∧
    ("term-0" : String) = mkTermId 0 ∧
    0 < ((tmRun TerminalManager.new
        [.create true "a", .create false "b", .create true "c", .release "term-0"]).1).next_id ∧
    tmLookup ((tmRun TerminalManager.new
        [.create true "a", .create false "b", .create true "c", .release "term-0"]).1).terminals
        "term-0" = none ∧
    tmLookup ((tmRun
        (tmRun TerminalManager.new
          [.create true "a", .create false "b", .create true "c", .release "term-0"]).1
        [.create true "x", .create true "y"]).1).terminals "term-0" = none := by
  refine ⟨by decide, claim_C7_terminal_ids.1 _, (claim_C7_terminal_ids.2.2.1
    TerminalManager.new "term-5" rfl).1, (claim_C7_terminal_ids.2.2.1
    TerminalManager.new "term-5" rfl).2.2.1, by decide, by decide, by decide, ?_⟩
  exact claim_C7_terminal_ids.2.2.2.2 [.create true "x", .create true "y"] _ "term-0" 0
    (by decide) (by decide) (by decide)

end Cyril
